import Mathlib

/-!
Verification development for a retrieval-augmented question answering pipeline.

The development shallowly embeds the pipeline's core components:
* the retry/backoff wrapper around API calls (`src/utils/api_retry.py`),
* the sliding-window text chunker (`src/ingest/chunker.py`),
* the vector store search/load (`src/rag/vector_store.py`),
* citation extraction, validation and precision (`src/eval/metrics.py`,
  `src/rag/structured_citations.py`),
* failure-case mining (`src/eval/compare_baseline_enhanced.py`).

Strings are embedded as `List Char`, Python ints as `Int`/`Nat`, Python floats
that only ever hold small exact decimal values (retry delays, score
thresholds, precisions) as `ℚ`, and similarity scores as `WithBot ℤ` where
`⊥` stands for the `-FLT_MAX` sentinel FAISS uses to pad missing neighbors.
Fallible operations return `Option`.
-/

/-! ## Retry wrapper — `src/utils/api_retry.py`

The OpenAI exception hierarchy relevant to `is_retryable`:
`RateLimitError` is an `APIStatusError` with HTTP status 429;
`APITimeoutError` and `APIConnectionError` are not `APIStatusError`s;
`otherErr` stands for any exception outside `RETRYABLE_EXCEPTIONS`. -/

inductive ApiErr where
  | rateLimit : ApiErr
  | statusErr : Nat → ApiErr
  | timeoutErr : ApiErr
  | connectionErr : ApiErr
  | otherErr : ApiErr
deriving DecidableEq

/-- The set `RETRYABLE_STATUS_CODES = {429, 500, 502, 503}` from `api_retry.py`. -/
def RETRYABLE_STATUS_CODES : List Nat := [429, 500, 502, 503]

/-- Model of `_status_code(error)`: the HTTP status attached to the error, if any. -/
def statusCode : ApiErr → Option Nat
  | ApiErr.rateLimit => some 429
  | ApiErr.statusErr s => some s
  | _ => none

/-- Model of `isinstance(error, APIStatusError)` for the embedded hierarchy. -/
def isStatusError : ApiErr → Bool
  | ApiErr.rateLimit => true
  | ApiErr.statusErr _ => true
  | _ => false

/-- Model of `isinstance(error, RETRYABLE_EXCEPTIONS)` for the embedded hierarchy. -/
def isRetryableException : ApiErr → Bool
  | ApiErr.otherErr => false
  | _ => true

/-- Model of `is_retryable(error)` from `api_retry.py`. -/
def is_retryable (e : ApiErr) : Bool :=
  if !isRetryableException e then false
  else if isStatusError e then
    match statusCode e with
    | some s => RETRYABLE_STATUS_CODES.contains s
    | none => false
  else true

/-- The loop body of `with_retry`: `attempt` is the index of the next call of
`callable_fn` (the code models one call per attempt as `f attempt`), `rem` is
the number of retries still allowed (`max_retries - attempt`), `delay` the
current backoff delay.  Returns the final outcome together with the list of
sleeps performed (`time.sleep(delay)` before each retry). -/
def retryLoop {α : Type} (f : Nat → Except ApiErr α) (base maxDelay : ℚ) :
    Nat → Nat → ℚ → Except ApiErr α × List ℚ
  | attempt, 0, _ => (f attempt, [])
  | attempt, rem + 1, delay =>
    match f attempt with
    | Except.ok a => (Except.ok a, [])
    | Except.error e =>
      if is_retryable e then
        let r := retryLoop f base maxDelay (attempt + 1) rem (min (delay * base) maxDelay)
        (r.1, delay :: r.2)
      else (Except.error e, [])

/-- Model of `with_retry(callable_fn, max_retries, initial_delay, max_delay,
exponential_base)` from `api_retry.py`; the result's second component is the
sequence of sleeps (so the number of attempts made is `sleeps.length + 1`). -/
def with_retry {α : Type} (f : Nat → Except ApiErr α) (max_retries : Nat)
    (initial_delay max_delay exponential_base : ℚ) : Except ApiErr α × List ℚ :=
  retryLoop f exponential_base max_delay 0 max_retries initial_delay

/-- The backoff schedule: `delay` starts at `initial` and is updated by
`delay = min(delay * base, maxDelay)` after each retry. -/
def delaySeq (initial base maxDelay : ℚ) : Nat → ℚ
  | 0 => initial
  | n + 1 => min (delaySeq initial base maxDelay n * base) maxDelay

/-! ## Chunker — `src/ingest/chunker.py`

`chunk_text` is modelled over the token sequence produced by the (external)
tokenizer; tokens are `Nat`s.  The record keeps the loop's token-window data:
the sequential chunk number (`chunk_id = "{source_id}_chunk_{n:03d}"`), the
window start index (the loop variable `start`), the token slice
`tokens[start:end]` (whose detokenization is the chunk `text`) and
`token_count = len(chunk_tokens)`.  `start_char`/`end_char` are lengths of
detokenized prefixes, a property of the external tokenizer, and are omitted.

The `while start < len(tokens)` loop has no termination guarantee when the
stride `chunk_size - overlap` is not positive, so the loop is embedded with a
fuel parameter: `none` means the loop did not finish within `fuel`
iterations.  `chunk_text` supplies `fuel = tokens.length`, which is proved
sufficient whenever `overlap < chunk_size`. -/

structure RawChunk where
  chunk_num : Nat
  start : Int
  toks : List Nat
  token_count : Nat
deriving DecidableEq, Repr

/-- The `while start < len(tokens)` loop of `TextChunker.chunk_text`,
with `stride = chunk_size - overlap` (an `Int`, as in Python it may be
non-positive when the configuration is invalid). -/
def chunkLoopFuel (tokens : List Nat) (size : Nat) (stride : Int) :
    Int → Nat → Nat → Option (List RawChunk)
  | start, _, 0 =>
    if start < (tokens.length : Int) then none else some []
  | start, num, fuel + 1 =>
    if start < (tokens.length : Int) then
      let e : Int := min (start + size) tokens.length
      let ctoks := (tokens.drop start.toNat).take (e - start).toNat
      match chunkLoopFuel tokens size stride (start + stride) (num + 1) fuel with
      | some rest =>
        some ({ chunk_num := num, start := start, toks := ctoks,
                token_count := ctoks.length } :: rest)
      | none => none
    else some []

/-- Model of `TextChunker.chunk_text(text, source_id)` on the token sequence of
`text`, with the chunker's `chunk_size`/`overlap` configuration. -/
def chunk_text (tokens : List Nat) (size overlap : Nat) : List RawChunk :=
  (chunkLoopFuel tokens size ((size : Int) - (overlap : Int)) 0 1
    tokens.length).getD []

/-- Token-position overlap of each consecutive pair of chunks: the window of
chunk `i` covers positions `[start, start + token_count)`, so the pair
`(c, d)` shares `c.start + c.token_count - d.start` positions. -/
def consecutiveOverlaps (cs : List RawChunk) : List Int :=
  List.zipWith (fun c d => c.start + (c.token_count : Int) - d.start) cs cs.tail

/-! ## Vector store — `src/rag/vector_store.py`

Embedding vectors are `List ℤ` (the ordering facts at issue do not depend on
float rounding); metadata entries (chunk dicts) are an arbitrary type `β`.
Similarity scores are `WithBot ℤ`, with `⊥` standing for the `-FLT_MAX`
sentinel FAISS writes into the padding entries of an inner-product search
(it is below every attainable similarity).  `faiss.IndexFlatIP.search`
returns, for each query, the top-`k` entries by inner product in
non-increasing score order, and pads the output with label `-1` (and the
sentinel score) when `k` exceeds the number of stored vectors. -/

/-- Inner product of two embedding vectors. -/
def dotZ (v w : List ℤ) : ℤ := (List.zipWith (fun a b => a * b) v w).sum

/-- Order used to rank search candidates: higher score first, ties broken by
insertion index (stable). -/
def rankLE (a b : Int × WithBot ℤ) : Prop :=
  b.2 < a.2 ∨ (a.2 = b.2 ∧ a.1 ≤ b.1)

instance : DecidableRel rankLE := fun a b => by
  unfold rankLE; infer_instance

instance : IsTotal (Int × WithBot ℤ) rankLE := by
  constructor
  intro a b
  rcases lt_trichotomy a.2 b.2 with h | h | h
  · exact Or.inr (Or.inl h)
  · rcases le_total a.1 b.1 with h1 | h1
    · exact Or.inl (Or.inr ⟨h, h1⟩)
    · exact Or.inr (Or.inr ⟨h.symm, h1⟩)
  · exact Or.inl (Or.inl h)

instance : IsTrans (Int × WithBot ℤ) rankLE := by
  constructor
  rintro a b c (hab | ⟨hab, hab1⟩) (hbc | ⟨hbc, hbc1⟩)
  · exact Or.inl (hbc.trans hab)
  · exact Or.inl (hbc ▸ hab)
  · exact Or.inl (hab ▸ hbc)
  · exact Or.inr ⟨hab.trans hbc, hab1.trans hbc1⟩

/-- Model of `faiss.IndexFlatIP.search(q, k)` over the stored vectors `vecs`
(one row per query; modelled for a single query): score each stored vector
by inner product with `q`, order by score descending with ties in insertion
order, return the first `k` `(label, score)` pairs, padding with
`(-1, sentinel)` when fewer than `k` vectors are stored. -/
def faissSearchIP (vecs : List (List ℤ)) (q : List ℤ) (k : Nat) :
    List (Int × WithBot ℤ) :=
  let scored := vecs.enum.map (fun p => ((p.1 : Int), ((dotZ p.2 q : ℤ) : WithBot ℤ)))
  let sorted := scored.insertionSort rankLE
  sorted.take k ++ List.replicate (k - vecs.length) (-1, (⊥ : WithBot ℤ))

/-- Python list indexing `l[i]`: a negative index counts from the end;
an out-of-range index raises `IndexError` (modelled as `none`). -/
def pyGet {β : Type} (l : List β) (i : Int) : Option β :=
  let j : Int := if i < 0 then (l.length : Int) + i else i
  if 0 ≤ j then l.get? j.toNat else none

namespace VectorStore

/-- Model of `VectorStore.search(query_embedding, k)`: run the FAISS search, then for
each returned pair look up `self.chunk_metadata[idx]` (Python indexing) and
attach `chunk['similarity_score'] = score`.  `none` models the `IndexError`
raised when a padding label `-1` is looked up in an empty metadata list. -/
def search {β : Type} (vecs : List (List ℤ)) (metadata : List β)
    (q : List ℤ) (k : Nat) : Option (List (β × WithBot ℤ)) :=
  (faissSearchIP vecs q k).mapM
    (fun p => (pyGet metadata p.1).map (fun c => (c, p.2)))

/-- The in-memory state restored by `VectorStore.load`. -/
structure Store (β : Type) where
  dimension : Nat
  index : List (List ℤ)
  chunk_metadata : List β
deriving DecidableEq

/-- Model of `VectorStore.load(path)`: read the FAISS index, set `dimension` from it,
read the metadata list.  The code performs no consistency check between the
two artifacts — any stored pair is accepted as-is. -/
def load {β : Type} (savedIndex : List (List ℤ)) (savedMetadata : List β) :
    Store β :=
  { dimension := (savedIndex.headD []).length
    index := savedIndex
    chunk_metadata := savedMetadata }

end VectorStore

/-! ## Citations — `src/eval/metrics.py` and `src/rag/structured_citations.py`

`_extract_citations` is `re.findall(r'\(([a-z0-9_]+),\s*([a-z0-9_]+)\)', text)`
followed by rendering each match as `f"({m[0]}, {m[1]})"`.  The scanner below
implements exactly that pattern's semantics: leftmost, non-overlapping
matches; the character classes of adjacent greedy pieces are disjoint
(`[a-z0-9_]` contains neither `,`, whitespace nor `)`), so no backtracking
arises.  `citation_precision` and `enhance_answer` then re-parse each
rendered citation with `re.search(r'\(([^,]+),\s*([^)]+)\)', cit)` and
`.strip()` the second group; `matchParen` implements that pattern including
the one backtracking case (`\s*` yielding a character back when `[^)]+`
would otherwise be empty). -/

/-- The character class `[a-z0-9_]`. -/
def isCitChar (c : Char) : Bool :=
  ('a' ≤ c && c ≤ 'z') || ('0' ≤ c && c ≤ '9') || c = '_'

/-- Python's `\s` / `str.strip()` whitespace (ASCII part). -/
def isPySpace (c : Char) : Bool :=
  c = ' ' || c = '\t' || c = '\n' || c = '\r' || c = '\x0b' || c = '\x0c'

/-- Try to match `([a-z0-9_]+),\s*([a-z0-9_]+)\)` at the start of `t`
(the text just after a literal `(`); on success return the two groups and
the remaining suffix. -/
def matchCit (t : List Char) : Option (List Char × List Char × List Char) :=
  let g1 := t.takeWhile isCitChar
  let r1 := t.dropWhile isCitChar
  if g1.isEmpty then none else
  match r1 with
  | ',' :: r2 =>
    let r3 := r2.dropWhile isPySpace
    let g2 := r3.takeWhile isCitChar
    let r4 := r3.dropWhile isCitChar
    if g2.isEmpty then none else
    match r4 with
    | ')' :: r5 => some (g1, g2, r5)
    | _ => none
  | _ => none

/-- The scan loop of `re.findall`: at each position try to match the
citation pattern (which must start with `(`); on success continue after the
match, on failure advance one character.  `fuel` bounds the number of scan
steps; every step consumes at least one character, so `fuel = t.length`
is always sufficient. -/
def extractAux : Nat → List Char → List (List Char × List Char)
  | 0, _ => []
  | _ + 1, [] => []
  | fuel + 1, c :: rest =>
    if c = '(' then
      match matchCit rest with
      | some (g1, g2, rest') => (g1, g2) :: extractAux fuel rest'
      | none => extractAux fuel rest
    else extractAux fuel rest

/-- All `(source_id, chunk_id)` group pairs found in `t`, in order. -/
def extractPairs (t : List Char) : List (List Char × List Char) :=
  extractAux t.length t

/-- The rendering `f"({m[0]}, {m[1]})"` — the canonical rendered form of a citation. -/
def renderCit (p : List Char × List Char) : List Char :=
  '(' :: (p.1 ++ ',' :: ' ' :: (p.2 ++ [')']))

/-- Model of `_extract_citations(text)` (identical in `metrics.py`,
`structured_citations.py` and `compare_baseline_enhanced.py`). -/
def extract_citations (t : List Char) : List (List Char) :=
  (extractPairs t).map renderCit

/-- Try to match `([^,]+),\s*([^)]+)\)` right after a literal `(`; returns
the second group.  `[^,]+` is greedy and the following literal is `,`, so it
takes everything before the first comma; after the comma, `[^)]+` must end
just before the first `)`, and `\s*` takes the maximal whitespace prefix of
that span unless `[^)]+` would be left empty, in which case `\s*` backs off
one character. -/
def matchParen (t : List Char) : Option (List Char) :=
  let g1 := t.takeWhile (fun c => !(c = ','))
  let r1 := t.dropWhile (fun c => !(c = ','))
  if g1.isEmpty then none else
  match r1 with
  | ',' :: r2 =>
    let pre := r2.takeWhile (fun c => !(c = ')'))
    let r3 := r2.dropWhile (fun c => !(c = ')'))
    match r3 with
    | ')' :: _ =>
      let x := pre.dropWhile isPySpace
      if x.isEmpty then
        match pre.getLast? with
        | some ch => some [ch]
        | none => none
      else some x
    | _ => none
  | _ => none

/-- Model of `re.search(r'\(([^,]+),\s*([^)]+)\)', cit)`: scan for the earliest
position where the pattern matches (it must start with `(`) and return
group 2. -/
def searchParen : List Char → Option (List Char)
  | [] => none
  | c :: rest =>
    if c = '(' then
      match matchParen rest with
      | some g2 => some g2
      | none => searchParen rest
    else searchParen rest

/-- Python `str.strip()`. -/
def pyStrip (t : List Char) : List Char :=
  ((t.dropWhile isPySpace).reverse.dropWhile isPySpace).reverse

/-- Model of `match.group(2).strip()` after a successful `re.search` — the chunk id
a citation refers to, if the citation parses. -/
def parse_chunk_id (cit : List Char) : Option (List Char) :=
  (searchParen cit).map pyStrip

/-- The validation loop of `citation_precision`: split the citations into
the `valid` and `invalid` lists (citations that do not re-parse fall into
neither). -/
def classifyCits (cits : List (List Char)) (ids : List (List Char)) :
    List (List Char) × List (List Char) :=
  match cits with
  | [] => ([], [])
  | c :: cs =>
    let vi := classifyCits cs ids
    match parse_chunk_id c with
    | some cid =>
      if cid ∈ ids then (c :: vi.1, vi.2) else (vi.1, c :: vi.2)
    | none => vi

/-- The dict returned by `EvaluationMetrics.citation_precision`; the
zero-citation early return carries no `invalid_citations` key, hence the
`Option`. -/
structure CitMetrics where
  total_citations : Nat
  valid_citations : Nat
  invalid_citations : Option Nat
  precision : ℚ
  invalid : List (List Char)
deriving DecidableEq

/-- Model of `EvaluationMetrics.citation_precision(result)`, as a function of the
answer text and the retrieved chunk id set
`{c['chunk_id'] for c in result['retrieved_chunks']}`. -/
def citation_precision (answer : List Char) (retrieved_ids : List (List Char)) :
    CitMetrics :=
  let citations := extract_citations answer
  if citations.isEmpty then
    { total_citations := 0, valid_citations := 0, invalid_citations := none,
      precision := 0, invalid := [] }
  else
    let vi := classifyCits citations retrieved_ids
    { total_citations := citations.length
      valid_citations := vi.1.length
      invalid_citations := some vi.2.length
      precision := (vi.1.length : ℚ) / (citations.length : ℚ)
      invalid := vi.2 }

/-- The citation-validation fields added by
`StructuredCitationGenerator.enhance_answer`. -/
structure EnhanceOut where
  citation_validation_passed : Bool
  invalid_citations : List (List Char)
  num_unique_sources : Nat
deriving DecidableEq

/-- Model of `StructuredCitationGenerator.enhance_answer(result)` (validation part),
as a function of the answer text and the retrieved chunk id set. -/
def enhance_answer (answer : List Char) (chunk_ids : List (List Char)) :
    EnhanceOut :=
  let citations := extract_citations answer
  let invalid := citations.filter (fun c =>
    match parse_chunk_id c with
    | some cid => decide (cid ∉ chunk_ids)
    | none => false)
  { citation_validation_passed := invalid.isEmpty
    invalid_citations := invalid
    num_unique_sources := ((extractPairs answer).map Prod.fst).dedup.length }

/-! ## Failure mining — `find_failure_cases` in
`src/eval/compare_baseline_enhanced.py`

A score row is one line of `enhanced_eval_scores.csv`; a result row is one
record of `enhanced_eval_results.jsonl`.  Missing LLM-judge scores are read
by pandas as NaN, for which every `<` comparison is false — modelled as
`Option ℤ` with `none < c` false.  Only the fields the classification reads
are kept; queries are identified by a numeric id. -/

structure ScoreRow where
  query_id : Nat
  citation_precision : ℚ
  total_citations : Nat
  groundedness_score : Option ℤ
  answer_relevance : Option ℤ
deriving DecidableEq

structure ResultRow where
  query_id : Nat
  retrieved_chunks : Nat
  invalid_citations : List Nat
deriving DecidableEq

/-- Model of `results_dict.get(query_id, {})` — a missing record behaves as an empty
dict, i.e. `.get('retrieved_chunks', [])` is empty and
`.get('invalid_citations', [])` is empty. -/
def lookupResult (results : List ResultRow) (q : Nat) : ResultRow :=
  (results.find? (fun r => r.query_id == q)).getD
    { query_id := q, retrieved_chunks := 0, invalid_citations := [] }

/-- pandas comparison of a possibly-NaN column with a constant:
`NaN < c` is false. -/
def optLt (x : Option ℤ) (c : ℤ) : Bool :=
  match x with
  | some v => decide (v < c)
  | none => false

/-- One failure-case classification: a type together with the query id. -/
inductive FailType where
  | lowPrecision : FailType
  | missingCitations : FailType
  | lowGroundedness : FailType
  | lowRelevance : FailType
  | invalidCitations : FailType
deriving DecidableEq

/-- Rules 1 and 2 of `find_failure_cases`: rule 1 appends every score row
with `citation_precision < 0.8`; rule 2 appends every score row with
`total_citations == 0` whose result has retrieved chunks — with **no**
check against the failures already collected. -/
def rule12Failures (scores : List ScoreRow) (results : List ResultRow) :
    List (FailType × Nat) :=
  (scores.filter (fun r => decide (r.citation_precision < (0.8 : ℚ)))).map
      (fun r => (FailType.lowPrecision, r.query_id))
    ++ (scores.filter (fun r =>
          r.total_citations == 0
            && decide (0 < (lookupResult results r.query_id).retrieved_chunks))).map
      (fun r => (FailType.missingCitations, r.query_id))

/-- Model of `if query_id not in [f['query_id'] for f in failures]: failures.append(…)`
— the guarded append used by rules 3, 4 and 5. -/
def addIfNew (acc : List (FailType × Nat)) (ty : FailType) (q : Nat) :
    List (FailType × Nat) :=
  if q ∈ acc.map Prod.snd then acc else acc ++ [(ty, q)]

/-- The classification phase of `find_failure_cases`: the full `failures`
list after the five rules have run in order. -/
def find_failure_cases (scores : List ScoreRow) (results : List ResultRow) :
    List (FailType × Nat) :=
  let f2 := rule12Failures scores results
  let f3 := (scores.filter (fun r => optLt r.groundedness_score 3)).foldl
    (fun acc r => addIfNew acc FailType.lowGroundedness r.query_id) f2
  let f4 := (scores.filter (fun r => optLt r.answer_relevance 3)).foldl
    (fun acc r => addIfNew acc FailType.lowRelevance r.query_id) f3
  (results.filter (fun r => !r.invalid_citations.isEmpty)).foldl
    (fun acc r => addIfNew acc FailType.invalidCitations r.query_id) f4

/-! ## Properties of the retry wrapper -/

/-- Shifting the backoff schedule by one step. -/
theorem delaySeq_succ (d b mx : ℚ) (i : Nat) :
    delaySeq d b mx (i + 1) = delaySeq (min (d * b) mx) b mx i := by
  induction i with
  | zero => rfl
  | succ j ih =>
    show min (delaySeq d b mx (j + 1) * b) mx = _
    rw [ih]
    rfl

/-- Unfolding equation for `retryLoop` with retries remaining. -/
theorem retryLoop_succ {α : Type} (f : Nat → Except ApiErr α) (b mx : ℚ)
    (attempt rem : Nat) (d : ℚ) :
    retryLoop f b mx attempt (rem + 1) d =
      match f attempt with
      | Except.ok a => (Except.ok a, [])
      | Except.error e =>
        if is_retryable e then
          let r := retryLoop f b mx (attempt + 1) rem (min (d * b) mx)
          (r.1, d :: r.2)
        else (Except.error e, []) := rfl

/-- The retry loop performs at most `rem` sleeps, its sleeps follow the
backoff schedule starting from the current delay, and its outcome is the
outcome of the last attempt made (the attempt whose index is the initial
attempt index plus the number of sleeps). -/
theorem retryLoop_spec {α : Type} (f : Nat → Except ApiErr α) (b mx : ℚ) :
    ∀ (rem attempt : Nat) (d : ℚ),
      (retryLoop f b mx attempt rem d).2.length ≤ rem ∧
      (retryLoop f b mx attempt rem d).1
        = f (attempt + (retryLoop f b mx attempt rem d).2.length) ∧
      (∀ (i : Nat) (h : i < (retryLoop f b mx attempt rem d).2.length),
        (retryLoop f b mx attempt rem d).2.get ⟨i, h⟩ = delaySeq d b mx i) := by
  intro rem
  induction rem with
  | zero =>
    intro attempt d
    refine ⟨Nat.le_refl _, rfl, ?_⟩
    intro i h
    exact absurd h (by simp [retryLoop])
  | succ rem ih =>
    intro attempt d
    rw [retryLoop_succ]
    cases hf : f attempt with
    | ok a =>
      refine ⟨by simp, by simp [hf], ?_⟩
      intro i h
      simp at h
    | error e =>
      dsimp only
      by_cases hr : is_retryable e = true
      · obtain ⟨ihlen, ihres, ihget⟩ := ih (attempt + 1) (min (d * b) mx)
        rw [if_pos hr]
        refine ⟨by simpa using Nat.succ_le_succ ihlen, ?_, ?_⟩
        · show (retryLoop f b mx (attempt + 1) rem (min (d * b) mx)).1 = _
          rw [ihres]
          congr 1
          simp only [List.length_cons]
          omega
        · intro i h
          match i with
          | 0 => rfl
          | j + 1 =>
            have hj : j < (retryLoop f b mx (attempt + 1) rem (min (d * b) mx)).2.length := by
              simpa using h
            have hg := ihget j hj
            show (retryLoop f b mx (attempt + 1) rem (min (d * b) mx)).2.get ⟨j, hj⟩ = _
            rw [hg, delaySeq_succ]
      · rw [if_neg hr]
        refine ⟨by simp, by simp [hf], ?_⟩
        intro i h
        simp at h

/-- If every attempt up to the retry budget fails with a retryable error,
the loop performs exactly `rem` sleeps (and therefore `rem + 1` attempts). -/
theorem retryLoop_exhaust {α : Type} (f : Nat → Except ApiErr α) (b mx : ℚ) :
    ∀ (rem attempt : Nat) (d : ℚ),
      (∀ i : Nat, i ≤ rem → ∃ e, f (attempt + i) = Except.error e ∧ is_retryable e = true) →
      (retryLoop f b mx attempt rem d).2.length = rem := by
  intro rem
  induction rem with
  | zero => intro attempt d _; rfl
  | succ rem ih =>
    intro attempt d hall
    obtain ⟨e, he, hre⟩ := hall 0 (Nat.zero_le _)
    rw [Nat.add_zero] at he
    rw [retryLoop_succ, he]
    dsimp only
    rw [if_pos hre]
    have := ih (attempt + 1) (min (d * b) mx) (fun i hi => by
      obtain ⟨e2, he2, hre2⟩ := hall (i + 1) (Nat.succ_le_succ hi)
      refine ⟨e2, ?_, hre2⟩
      rw [← he2]
      congr 1
      omega)
    simp [this]

/-- The two failing rate-limited calls followed by a success, used as the
concrete retry-timing scenario. -/
def retryExampleCalls : Nat → Except ApiErr Nat :=
  fun i => if i < 2 then Except.error ApiErr.rateLimit else Except.ok 7

/-- C6 (counterexample): the spec claims every 5xx server error is
retryable, but `is_retryable` classifies status 504 — a 5xx — as fatal:
only the explicit set {429, 500, 502, 503} is retried. -/
theorem C6_counterexample :
    is_retryable (ApiErr.statusErr 504) = false ∧ 500 ≤ 504 ∧ 504 < 600 := by
  decide

/-- C6 (amended): the retry wrapper classifies a failure as retryable
exactly when it is a rate-limit error, a server error with status in
{429, 500, 502, 503}, a timeout, or a connection failure, and as fatal
otherwise (including every 4xx other than 429 and every 5xx outside
{500, 502, 503}); a fatal failure is raised immediately, with no retry and
no sleep. -/
theorem C6_amended :
    (∀ e : ApiErr, is_retryable e = true ↔
      (e = ApiErr.rateLimit ∨ e = ApiErr.timeoutErr ∨ e = ApiErr.connectionErr ∨
        (∃ s : Nat, e = ApiErr.statusErr s ∧ (s = 429 ∨ s = 500 ∨ s = 502 ∨ s = 503)))) ∧
    (∀ (α : Type) (f : Nat → Except ApiErr α) (e : ApiErr) (mr : Nat) (d0 mx b : ℚ),
      f 0 = Except.error e → is_retryable e = false →
      with_retry f mr d0 mx b = (Except.error e, [])) := by
  constructor
  · intro e
    cases e with
    | rateLimit => simp [is_retryable, isRetryableException, isStatusError, statusCode,
        RETRYABLE_STATUS_CODES]
    | statusErr s =>
      have hmem : (RETRYABLE_STATUS_CODES.contains s = true) ↔
          (s = 429 ∨ s = 500 ∨ s = 502 ∨ s = 503) := by
        simp [RETRYABLE_STATUS_CODES, List.contains, List.elem_iff]
      show RETRYABLE_STATUS_CODES.contains s = true ↔ _
      rw [hmem]
      constructor
      · intro h
        exact Or.inr (Or.inr (Or.inr ⟨s, rfl, h⟩))
      · rintro (h | h | h | ⟨s2, hs2, h⟩)
        · simp at h
        · simp at h
        · simp at h
        · cases hs2
          exact h
    | timeoutErr => simp [is_retryable, isRetryableException, isStatusError]
    | connectionErr => simp [is_retryable, isRetryableException, isStatusError]
    | otherErr => simp [is_retryable, isRetryableException]
  · intro α f e mr d0 mx b hf hr
    cases mr with
    | zero => show (f 0, ([] : List ℚ)) = _; rw [hf]
    | succ m =>
      show retryLoop f b mx 0 (m + 1) d0 = _
      rw [retryLoop_succ, hf]
      dsimp only
      rw [if_neg (by simp [hr])]

/-- C6 (witness): a 404 is fatal and `with_retry` raises it on the first
attempt without sleeping. -/
theorem C6_witness :
    with_retry (fun _ => Except.error (ApiErr.statusErr 404) : Nat → Except ApiErr Nat)
      5 1 60 (2 : ℚ) = (Except.error (ApiErr.statusErr 404), []) :=
  C6_amended.2 Nat (fun _ => Except.error (ApiErr.statusErr 404))
    (ApiErr.statusErr 404) 5 1 60 2 rfl (by decide)

unseal Rat.mul in
/-- C7: `with_retry` makes at most `max_retries + 1` attempts (at most
`max_retries` sleeps, the outcome being that of attempt `sleeps.length`);
each sleep follows the backoff schedule `delay₀ = initial_delay`,
`delayᵢ₊₁ = min(delayᵢ * base, max_delay)`; when every allowed attempt fails
with a retryable error the loop sleeps exactly `max_retries` times and the
last attempt's error propagates; and in the concrete scenario (two
rate-limit failures then success, `initial_delay=1`, `base=2`,
`max_delay=60`) the call observes sleeps `[1, 2]` — hence exactly 3
attempts — and returns the success. -/
theorem C7_retry_policy :
    (∀ (α : Type) (f : Nat → Except ApiErr α) (mr : Nat) (d0 mx b : ℚ),
      (with_retry f mr d0 mx b).2.length ≤ mr) ∧
    (∀ (α : Type) (f : Nat → Except ApiErr α) (mr : Nat) (d0 mx b : ℚ)
      (i : Nat) (h : i < (with_retry f mr d0 mx b).2.length),
      (with_retry f mr d0 mx b).2.get ⟨i, h⟩ = delaySeq d0 b mx i) ∧
    (∀ (α : Type) (f : Nat → Except ApiErr α) (mr : Nat) (d0 mx b : ℚ),
      (with_retry f mr d0 mx b).1 = f ((with_retry f mr d0 mx b).2.length)) ∧
    (∀ (α : Type) (f : Nat → Except ApiErr α) (mr : Nat) (d0 mx b : ℚ),
      (∀ i : Nat, i ≤ mr → ∃ e, f i = Except.error e ∧ is_retryable e = true) →
      (with_retry f mr d0 mx b).2.length = mr) ∧
    with_retry retryExampleCalls 5 1 60 2 = (Except.ok 7, [1, 2]) := by
  refine ⟨?_, ?_, ?_, ?_, ?_⟩
  · intro α f mr d0 mx b
    exact (retryLoop_spec f b mx mr 0 d0).1
  · intro α f mr d0 mx b i h
    exact (retryLoop_spec f b mx mr 0 d0).2.2 i h
  · intro α f mr d0 mx b
    have := (retryLoop_spec f b mx mr 0 d0).2.1
    simpa using this
  · intro α f mr d0 mx b hall
    exact retryLoop_exhaust f b mx mr 0 d0 (fun i hi => by
      simpa using hall i hi)
  · rfl

/-- C7 (witness): with every attempt failing retryably and a budget of 3
retries, the wrapper sleeps exactly 3 times (4 attempts). -/
theorem C7_witness :
    (with_retry (fun _ => Except.error ApiErr.rateLimit : Nat → Except ApiErr Nat)
      3 1 60 (2 : ℚ)).2.length = 3 :=
  C7_retry_policy.2.2.2.1 Nat (fun _ => Except.error ApiErr.rateLimit) 3 1 60 2
    (fun i _ => ⟨ApiErr.rateLimit, rfl, by decide⟩)

/-! ## Properties of the chunker -/

/-- Unfolding equation for `chunkLoopFuel` with fuel remaining. -/
theorem chunkLoopFuel_succ (tokens : List Nat) (size : Nat) (stride : Int)
    (start : Int) (num fuel : Nat) :
    chunkLoopFuel tokens size stride start num (fuel + 1) =
      if start < (tokens.length : Int) then
        let e : Int := min (start + size) tokens.length
        let ctoks := (tokens.drop start.toNat).take (e - start).toNat
        match chunkLoopFuel tokens size stride (start + stride) (num + 1) fuel with
        | some rest =>
          some ({ chunk_num := num, start := start, toks := ctoks,
                  token_count := ctoks.length } :: rest)
        | none => none
      else some [] := rfl

/-- With a non-positive stride and a nonempty token sequence, the chunking
loop never leaves the `start < len(tokens)` guard: it fails to finish within
any amount of fuel, i.e. the Python `while` loop runs forever. -/
theorem chunkLoopFuel_none (tokens : List Nat) (size : Nat) (stride : Int)
    (hs : stride ≤ 0) (htok : tokens ≠ []) :
    ∀ (fuel : Nat) (start : Int) (num : Nat), start ≤ 0 →
      chunkLoopFuel tokens size stride start num fuel = none := by
  intro fuel
  induction fuel with
  | zero =>
    intro start num h0
    have hlen : 0 < (tokens.length : Int) := by
      have := List.length_pos.mpr htok
      exact_mod_cast this
    show (if start < (tokens.length : Int) then none else some []) = none
    rw [if_pos (lt_of_le_of_lt h0 hlen)]
  | succ fuel ih =>
    intro start num h0
    have hlen : 0 < (tokens.length : Int) := by
      have := List.length_pos.mpr htok
      exact_mod_cast this
    rw [chunkLoopFuel_succ, if_pos (lt_of_le_of_lt h0 hlen)]
    have hrec := ih (start + stride) (num + 1) (by omega)
    simp only [hrec]

/-- Full characterization of the chunking loop for a positive stride and
sufficient fuel: it succeeds, produces one chunk per window start
`start + i * stride` below the token count, and each chunk carries the
window's number, start, and token slice. -/
theorem chunkLoopFuel_spec (tokens : List Nat) (size : Nat) (s : Int)
    (hs : 1 ≤ s) :
    ∀ (fuel : Nat) (start : Int) (num : Nat), 0 ≤ start →
      (tokens.length : Int) ≤ start + fuel * s →
      ∃ l, chunkLoopFuel tokens size s start num fuel = some l ∧
        (∀ i : Nat, i < l.length ↔ start + i * s < (tokens.length : Int)) ∧
        (∀ (i : Nat) (h : i < l.length),
          (l.get ⟨i, h⟩).start = start + i * s ∧
          (l.get ⟨i, h⟩).chunk_num = num + i ∧
          (l.get ⟨i, h⟩).toks =
            (tokens.drop (start + i * s).toNat).take
              ((min (start + i * s + size) (tokens.length : Int) - (start + i * s)).toNat) ∧
          (l.get ⟨i, h⟩).token_count = (l.get ⟨i, h⟩).toks.length) := by
  intro fuel
  induction fuel with
  | zero =>
    intro start num h0 hf
    rw [Nat.cast_zero, zero_mul, add_zero] at hf
    refine ⟨[], ?_, ?_, ?_⟩
    · show (if start < (tokens.length : Int) then none else some []) = some []
      rw [if_neg (not_lt.mpr hf)]
    · intro i
      constructor
      · intro h
        exact absurd h (by simp)
      · intro h
        have : (0 : Int) ≤ i * s := by positivity
        omega
    · intro i h
      exact absurd h (by simp)
  | succ fuel ih =>
    intro start num h0 hf
    by_cases hlt : start < (tokens.length : Int)
    · obtain ⟨l2, hl2, hiff, hget⟩ := ih (start + s) (num + 1) (by omega) (by
        push_cast at hf ⊢
        nlinarith)
      rw [chunkLoopFuel_succ, if_pos hlt]
      simp only [hl2]
      refine ⟨_, rfl, ?_, ?_⟩
      · intro i
        match i with
        | 0 => simpa using hlt
        | j + 1 =>
          have := hiff j
          constructor
          · intro h
            have hj : j < l2.length := by simpa using h
            have := this.mp hj
            push_cast
            push_cast at this
            nlinarith
          · intro h
            have hj : start + s + j * s < (tokens.length : Int) := by
              push_cast at h ⊢
              nlinarith
            have := this.mpr hj
            simpa using this
      · intro i h
        match i with
        | 0 =>
          refine ⟨by simp, by simp, ?_, rfl⟩
          simp
        | j + 1 =>
          have hj : j < l2.length := by simpa using h
          obtain ⟨g1, g2, g3, g4⟩ := hget j hj
          have harith : start + s + (j : Int) * s = start + ((j : Nat) + 1 : Nat) * s := by
            push_cast
            ring
          refine ⟨?_, ?_, ?_, ?_⟩
          · show (l2.get ⟨j, hj⟩).start = _
            rw [g1, harith]
          · show (l2.get ⟨j, hj⟩).chunk_num = _
            rw [g2]
            omega
          · show (l2.get ⟨j, hj⟩).toks = _
            rw [g3, harith]
          · exact g4
    · rw [chunkLoopFuel_succ, if_neg hlt]
      push_neg at hlt
      refine ⟨[], rfl, ?_, ?_⟩
      · intro i
        constructor
        · intro h
          exact absurd h (by simp)
        · intro h
          have : (0 : Int) ≤ i * s := by positivity
          omega
      · intro i h
        exact absurd h (by simp)

/-- Behavior of `chunk_text` for a valid configuration (`overlap < chunk_size`): one
chunk per window start `i * (chunk_size - overlap)` below the token count;
chunk `i` (0-based) has chunk number `i + 1`, starts at `i * stride`, and
holds the next `min chunk_size (len - start)` tokens. -/
theorem chunk_text_spec (tokens : List Nat) (size ov : Nat) (hov : ov < size) :
    (∀ i : Nat, i < (chunk_text tokens size ov).length ↔ i * (size - ov) < tokens.length) ∧
    (∀ (i : Nat) (h : i < (chunk_text tokens size ov).length),
      ((chunk_text tokens size ov).get ⟨i, h⟩).start = ((i * (size - ov) : Nat) : Int) ∧
      ((chunk_text tokens size ov).get ⟨i, h⟩).chunk_num = i + 1 ∧
      ((chunk_text tokens size ov).get ⟨i, h⟩).toks
        = (tokens.drop (i * (size - ov))).take (min size (tokens.length - i * (size - ov))) ∧
      ((chunk_text tokens size ov).get ⟨i, h⟩).token_count
        = min size (tokens.length - i * (size - ov))) := by
  set s : Int := (size : Int) - (ov : Int) with hsdef
  have hs : 1 ≤ s := by omega
  have hf : (tokens.length : Int) ≤ 0 + (tokens.length : Nat) * s := by
    have h0 : (0 : Int) ≤ (tokens.length : Int) := by positivity
    nlinarith
  obtain ⟨l, hsome, hiff, hget⟩ :=
    chunkLoopFuel_spec tokens size s hs tokens.length 0 1 le_rfl hf
  have hct : l = chunk_text tokens size ov := by
    unfold chunk_text
    rw [← hsdef, hsome]
    rfl
  subst hct
  have hcast : ∀ i : Nat, (0 : Int) + (i : Int) * s = ((i * (size - ov) : Nat) : Int) := by
    intro i
    rw [hsdef]
    push_cast [Nat.cast_sub hov.le]
    ring
  constructor
  · intro i
    rw [hiff i, hcast i]
    exact_mod_cast Iff.rfl
  · intro i h
    obtain ⟨g1, g2, g3, g4⟩ := hget i h
    have hlt : i * (size - ov) < tokens.length := by
      have := (hiff i).mp h
      rw [hcast i] at this
      exact_mod_cast this
    have hstart : (0 : Int) + (i : Int) * s = ((i * (size - ov) : Nat) : Int) := hcast i
    have htoNat : ((0 : Int) + (i : Int) * s).toNat = i * (size - ov) := by
      rw [hstart]
      exact Int.toNat_natCast _
    have hcount : ((min ((0 : Int) + (i : Int) * s + (size : Int)) (tokens.length : Int)
        - ((0 : Int) + (i : Int) * s)).toNat) = min size (tokens.length - i * (size - ov)) := by
      rw [hstart]
      omega
    refine ⟨?_, ?_, ?_, ?_⟩
    · rw [g1, hstart]
    · rw [g2]
      omega
    · rw [g3, htoNat, hcount]
    · rw [g4, g3, htoNat, hcount]
      simp only [List.length_take, List.length_drop]
      omega

/-- C3 (divergence at the failing input, and the true half of the claim):
the chunker has no precondition check at all — calling `chunk_text` with
`overlap = chunk_size` (stride 0) on a nonempty text loops forever (the
loop finishes under no fuel bound) instead of failing fast with a
configuration error; for every valid configuration (`overlap < chunk_size`)
the loop terminates within `tokens.length` iterations. -/
theorem C3_overlap_not_validated :
    (∀ fuel : Nat, chunkLoopFuel [0] 512 ((512 : Int) - (512 : Int)) 0 1 fuel = none) ∧
    (∀ (tokens : List Nat) (size ov : Nat), ov < size →
      (chunkLoopFuel tokens size ((size : Int) - (ov : Int)) 0 1 tokens.length).isSome
        = true) := by
  constructor
  · intro fuel
    exact chunkLoopFuel_none [0] 512 ((512 : Int) - (512 : Int)) (by norm_num)
      (by simp) fuel 0 1 le_rfl
  · intro tokens size ov hov
    have hs : 1 ≤ (size : Int) - (ov : Int) := by omega
    have hf : (tokens.length : Int) ≤ 0 + (tokens.length : Nat) * ((size : Int) - (ov : Int)) := by
      have h0 : (0 : Int) ≤ (tokens.length : Int) := by positivity
      nlinarith
    obtain ⟨l, hsome, -, -⟩ :=
      chunkLoopFuel_spec tokens size ((size : Int) - (ov : Int)) hs tokens.length 0 1 le_rfl hf
    rw [hsome]
    rfl

/-- C3 (witness): a valid configuration terminates. -/
theorem C3_witness :
    (chunkLoopFuel (List.range 5) 4 ((4 : Int) - (1 : Int)) 0 1
      (List.range 5).length).isSome = true :=
  C3_overlap_not_validated.2 (List.range 5) 4 1 (by decide)

/-- C8 (counterexample): with `chunk_size = 10`, `overlap = 8` (a valid
configuration) over a 15-token text, the consecutive overlaps are
`[8, 8, 8, 7, 5, 3, 1]` over 8 chunks: several non-final consecutive pairs
overlap by less than `overlap` tokens, so the claimed "exactly `overlap`
except the final chunk" fails. -/
theorem C8_counterexample :
    (chunk_text (List.range 15) 10 8).length = 8 ∧
    consecutiveOverlaps (chunk_text (List.range 15) 10 8) = [8, 8, 8, 7, 5, 3, 1] ∧
    ((consecutiveOverlaps (chunk_text (List.range 15) 10 8)).dropLast.all
      (fun x => x = 8)) = false := by
  decide

/-- C8 (amended): for `overlap < chunk_size`, chunk starts form the
arithmetic sequence `0, s, 2s, …` with `s = chunk_size - overlap` (one chunk
per start below the token count); a consecutive pair overlaps by exactly
`overlap` tokens whenever the earlier chunk is full (`start + chunk_size ≤`
token count) — overlaps shrink once windows are truncated by the end of
text; and the example (`chunk_size=10, overlap=3`, 25 tokens) yields starts
`[0, 7, 14, 21]` with the final chunk holding 4 tokens. -/
theorem C8_amended (tokens : List Nat) (size ov : Nat) (hov : ov < size) :
    (∀ i : Nat, i < (chunk_text tokens size ov).length ↔ i * (size - ov) < tokens.length) ∧
    (∀ (i : Nat) (h : i < (chunk_text tokens size ov).length),
      ((chunk_text tokens size ov).get ⟨i, h⟩).start = ((i * (size - ov) : Nat) : Int) ∧
      ((chunk_text tokens size ov).get ⟨i, h⟩).chunk_num = i + 1 ∧
      ((chunk_text tokens size ov).get ⟨i, h⟩).token_count
        = min size (tokens.length - i * (size - ov))) ∧
    (∀ (i : Nat) (h : i + 1 < (chunk_text tokens size ov).length),
      i * (size - ov) + size ≤ tokens.length →
      ((chunk_text tokens size ov).get ⟨i, Nat.lt_of_succ_lt h⟩).start
          + (((chunk_text tokens size ov).get ⟨i, Nat.lt_of_succ_lt h⟩).token_count : Int)
          - ((chunk_text tokens size ov).get ⟨i + 1, h⟩).start = (ov : Int)) ∧
    ((chunk_text (List.range 25) 10 3).map RawChunk.start = [0, 7, 14, 21] ∧
     (chunk_text (List.range 25) 10 3).map RawChunk.token_count = [10, 10, 10, 4]) := by
  obtain ⟨hiff, hget⟩ := chunk_text_spec tokens size ov hov
  refine ⟨hiff, ?_, ?_, by decide, by decide⟩
  · intro i h
    obtain ⟨g1, g2, -, g4⟩ := hget i h
    exact ⟨g1, g2, g4⟩
  · intro i h hfull
    obtain ⟨g1, -, -, g4⟩ := hget i (Nat.lt_of_succ_lt h)
    obtain ⟨g1s, -, -, -⟩ := hget (i + 1) h
    rw [g1, g4, g1s]
    have hmin : min size (tokens.length - i * (size - ov)) = size := by omega
    rw [hmin]
    have hsucc : (i + 1) * (size - ov) = i * (size - ov) + (size - ov) := by
      rw [Nat.succ_mul]
    push_cast [hsucc, Nat.cast_sub hov.le]
    ring

/-- C8 (witness): the example configuration yields 4 chunks. -/
theorem C8_witness : (chunk_text (List.range 25) 10 3).length = 4 := by
  have h := (C8_amended (List.range 25) 10 3 (by decide)).1
  have h3 : 3 < (chunk_text (List.range 25) 10 3).length := (h 3).mpr (by decide)
  have h4 : ¬4 < (chunk_text (List.range 25) 10 3).length := fun hh => by
    have := (h 4).mp hh
    revert this
    decide
  omega

/-- C9 (counterexample): a 2-token text with `chunk_size = 3`,
`overlap = 2` is shorter than `chunk_size` yet yields 2 chunks (the stride
is smaller than the text, so the window revisits the tail). -/
theorem C9_counterexample :
    (List.range 2).length < 3 ∧ (chunk_text (List.range 2) 3 2).length = 2 := by
  decide

/-- C9 (amended): a nonempty text with at most `chunk_size - overlap`
tokens yields exactly one chunk, holding all tokens, with chunk number 1;
an empty text yields no chunk at all. -/
theorem C9_amended :
    (∀ (tokens : List Nat) (size ov : Nat), ov < size → tokens ≠ [] →
      tokens.length ≤ size - ov →
      chunk_text tokens size ov
        = [{ chunk_num := 1, start := 0, toks := tokens,
             token_count := tokens.length }]) ∧
    (∀ size ov : Nat, chunk_text [] size ov = []) := by
  constructor
  · intro tokens size ov hov hne hlen
    obtain ⟨hiff, hget⟩ := chunk_text_spec tokens size ov hov
    have hpos : 0 < tokens.length := List.length_pos.mpr hne
    have h0 : 0 < (chunk_text tokens size ov).length := (hiff 0).mpr (by simpa using hpos)
    have h1 : ¬1 < (chunk_text tokens size ov).length := fun hh => by
      have := (hiff 1).mp hh
      omega
    have hone : (chunk_text tokens size ov).length = 1 := by omega
    refine List.ext_get (by simp [hone]) ?_
    intro n h1 h2
    have hn : n = 0 := by
      have : n < 1 := by simpa using h2
      omega
    subst hn
    obtain ⟨g1, g2, g3, g4⟩ := hget 0 h1
    rcases hgc : (chunk_text tokens size ov).get ⟨0, h1⟩ with ⟨cn, cs, ct, cc⟩
    rw [hgc] at g1 g2 g3 g4
    have g1n : cs = ((0 * (size - ov) : Nat) : Int) := g1
    have g2n : cn = 0 + 1 := g2
    have g3n : ct
        = List.take (min size (tokens.length - 0 * (size - ov)))
            (List.drop (0 * (size - ov)) tokens) := g3
    have g4n : cc = min size (tokens.length - 0 * (size - ov)) := g4
    have hmin : min size (tokens.length - 0 * (size - ov)) = tokens.length := by omega
    show RawChunk.mk cn cs ct cc
      = RawChunk.mk 1 0 tokens tokens.length
    simp only [RawChunk.mk.injEq]
    refine ⟨by simpa using g2n, by simpa using g1n, ?_, ?_⟩
    · rw [g3n, hmin]
      simp
    · rw [g4n, hmin]
  · intro size ov
    rfl

/-- C9 (witness): a 2-token text with stride 3 yields the single chunk. -/
theorem C9_witness :
    chunk_text [0, 1] 5 2
      = [{ chunk_num := 1, start := 0, toks := [0, 1], token_count := 2 }] :=
  C9_amended.1 [0, 1] 5 2 (by decide) (by decide) (by decide)

/-! ## Properties of the vector store load -/

/-- C4: `VectorStore.load` performs no consistency check between the two
persisted artifacts: it restores any stored pair as-is, even when the
metadata entry count disagrees with the index's vector count — shown
generally and on a concrete mismatched pair (2 vectors, 1 metadata entry),
which is accepted rather than rejected. -/
theorem C4_load_accepts_any_pair :
    (∀ (β : Type) (vecs : List (List ℤ)) (md : List β),
      (VectorStore.load vecs md).index = vecs ∧
      (VectorStore.load vecs md).chunk_metadata = md) ∧
    ((VectorStore.load [[1], [2]] [(0 : Nat)]).index.length = 2 ∧
     (VectorStore.load [[1], [2]] [(0 : Nat)]).chunk_metadata.length = 1) := by
  exact ⟨fun β vecs md => ⟨rfl, rfl⟩, by decide⟩

/-! ## Properties of failure mining -/

/-- The guarded-append fold of rules 3–5 only ever appends query ids that
are not already classified, and never appends the same id twice. -/
theorem foldl_addIfNew_spec (ty : FailType) :
    ∀ (qs : List Nat) (acc : List (FailType × Nat)),
      ∃ rest, qs.foldl (fun a q => addIfNew a ty q) acc = acc ++ rest ∧
        (∀ p ∈ rest, p.2 ∉ acc.map Prod.snd) ∧ (rest.map Prod.snd).Nodup := by
  intro qs
  induction qs with
  | nil =>
    intro acc
    exact ⟨[], by simp, by simp, by simp⟩
  | cons q qs ih =>
    intro acc
    show ∃ rest, qs.foldl (fun a q => addIfNew a ty q) (addIfNew acc ty q) = acc ++ rest ∧ _
    by_cases hmem : q ∈ acc.map Prod.snd
    · rw [show addIfNew acc ty q = acc from if_pos hmem]
      exact ih acc
    · rw [show addIfNew acc ty q = acc ++ [(ty, q)] from if_neg hmem]
      obtain ⟨rest2, heq, hnew, hnd⟩ := ih (acc ++ [(ty, q)])
      refine ⟨(ty, q) :: rest2, by simpa using heq, ?_, ?_⟩
      · intro p hp
        rcases List.mem_cons.mp hp with hp | hp
        · subst hp
          exact hmem
        · intro hin
          exact (hnew p hp) (by simp [hin])
      · refine List.Pairwise.cons ?_ hnd
        intro q2 hq2
        obtain ⟨p, hp, hpq⟩ := List.mem_map.mp hq2
        have := hnew p hp
        simp only [List.map_append, List.map_cons, List.map_nil, List.mem_append,
          List.mem_cons, List.not_mem_nil] at this
        intro hcontra
        subst hpq
        exact this (Or.inr (Or.inl hcontra.symm))

unseal Rat.ofScientific in
/-- C2 (counterexample): a query with zero citations and a nonempty
retrieved set has citation precision 0.0 < 0.8, so rule 1 classifies it as
"Low Citation Precision", and rule 2 — which performs no check against
already-classified queries — classifies it again as "Missing Citations":
the query receives two failure types, not at most one. -/
theorem C2_counterexample :
    (find_failure_cases
        [{ query_id := 1, citation_precision := 0, total_citations := 0,
           groundedness_score := none, answer_relevance := none }]
        [{ query_id := 1, retrieved_chunks := 5, invalid_citations := [] }]).countP
      (fun p => p.2 == 1) = 2 := by
  decide

unseal Rat.ofScientific in
/-- C2 (amended): the five rules run in order and rules 3–5 skip any query
already classified (each later-rule entry's query id is absent from the
rule-1/2 output, and rules 3–5 never produce duplicate ids), but rule 2
performs no such check against rule 1: a query with `total_citations = 0`
and retrieved chunks is classified both "Low Citation Precision" (its
precision is 0.0 < 0.8) and "Missing Citations"; and a result with 0
retrieved chunks and 0 citations is classified by rule 1 alone (not
rule 2), rather than by neither. -/
theorem C2_amended :
    (∀ (scores : List ScoreRow) (results : List ResultRow),
      ∃ rest, find_failure_cases scores results = rule12Failures scores results ++ rest ∧
        (∀ p ∈ rest, p.2 ∉ (rule12Failures scores results).map Prod.snd) ∧
        (rest.map Prod.snd).Nodup) ∧
    (find_failure_cases
        [{ query_id := 1, citation_precision := 0, total_citations := 0,
           groundedness_score := none, answer_relevance := none }]
        [{ query_id := 1, retrieved_chunks := 5, invalid_citations := [] }]
      = [(FailType.lowPrecision, 1), (FailType.missingCitations, 1)]) ∧
    (find_failure_cases
        [{ query_id := 2, citation_precision := 0, total_citations := 0,
           groundedness_score := none, answer_relevance := none }]
        [{ query_id := 2, retrieved_chunks := 0, invalid_citations := [] }]
      = [(FailType.lowPrecision, 2)]) := by
  refine ⟨?_, by decide, by decide⟩
  intro scores results
  obtain ⟨r3, h3eq, h3new, h3nd⟩ := foldl_addIfNew_spec FailType.lowGroundedness
    ((scores.filter (fun r => optLt r.groundedness_score 3)).map (fun r => r.query_id))
    (rule12Failures scores results)
  rw [List.foldl_map] at h3eq
  obtain ⟨r4, h4eq, h4new, h4nd⟩ := foldl_addIfNew_spec FailType.lowRelevance
    ((scores.filter (fun r => optLt r.answer_relevance 3)).map (fun r => r.query_id))
    (rule12Failures scores results ++ r3)
  rw [List.foldl_map] at h4eq
  obtain ⟨r5, h5eq, h5new, h5nd⟩ := foldl_addIfNew_spec FailType.invalidCitations
    ((results.filter (fun r => !r.invalid_citations.isEmpty)).map (fun r => r.query_id))
    ((rule12Failures scores results ++ r3) ++ r4)
  rw [List.foldl_map] at h5eq
  refine ⟨r3 ++ r4 ++ r5, ?_, ?_, ?_⟩
  · show List.foldl (fun acc r => addIfNew acc FailType.invalidCitations r.query_id)
        (List.foldl (fun acc r => addIfNew acc FailType.lowRelevance r.query_id)
          (List.foldl (fun acc r => addIfNew acc FailType.lowGroundedness r.query_id)
            (rule12Failures scores results)
            (scores.filter (fun r => optLt r.groundedness_score 3)))
          (scores.filter (fun r => optLt r.answer_relevance 3)))
        (results.filter (fun r => !r.invalid_citations.isEmpty))
      = rule12Failures scores results ++ (r3 ++ r4 ++ r5)
    rw [h3eq, h4eq, h5eq]
    simp [List.append_assoc]
  · intro p hp
    simp only [List.mem_append] at hp
    rcases hp with (hp | hp) | hp
    · exact h3new p hp
    · intro hin
      exact (h4new p hp) (by simp [hin])
    · intro hin
      exact (h5new p hp) (by simp [hin])
  · simp only [List.map_append]
    refine (List.Nodup.append h3nd h4nd ?_).append h5nd ?_
    · intro q hq3 hq4
      obtain ⟨p, hp, hpq⟩ := List.mem_map.mp hq4
      have := h4new p hp
      simp only [List.map_append, List.mem_append] at this
      exact this (Or.inr (hpq ▸ hq3))
    · intro q hq34 hq5
      obtain ⟨p, hp, hpq⟩ := List.mem_map.mp hq5
      have := h5new p hp
      simp only [List.map_append, List.mem_append] at this
      simp only [List.mem_append] at hq34
      rcases hq34 with hq3 | hq4
      · exact this (Or.inl (Or.inr (hpq ▸ hq3)))
      · exact this (Or.inr (hpq ▸ hq4))

/-! ## Properties of citation extraction and validation -/

/-- A `[a-z0-9_]` character is none of the pattern's delimiter characters
and is not whitespace. -/
theorem citChar_facts (c : Char) (h : isCitChar c = true) :
    c ≠ ',' ∧ c ≠ ')' ∧ c ≠ '(' ∧ isPySpace c = false := by
  refine ⟨?_, ?_, ?_, ?_⟩
  · intro heq; subst heq; revert h; decide
  · intro heq; subst heq; revert h; decide
  · intro heq; subst heq; revert h; decide
  · cases hs : isPySpace c with
    | false => rfl
    | true =>
      simp only [isPySpace, Bool.or_eq_true, decide_eq_true_eq] at hs
      rcases hs with ((((h1 | h1) | h1) | h1) | h1) | h1 <;>
        (subst h1; revert h; decide)

/-- Lemma: `takeWhile` walks through a prefix on which the predicate holds. -/
theorem takeWhile_append_of_all {p : Char → Bool} :
    ∀ (l r : List Char), (∀ c ∈ l, p c = true) →
      (l ++ r).takeWhile p = l ++ r.takeWhile p := by
  intro l
  induction l with
  | nil => intro r _; rfl
  | cons a l ih =>
    intro r hall
    have ha : p a = true := hall a (by simp)
    simp only [List.cons_append, List.takeWhile_cons_of_pos ha]
    rw [ih r (fun c hc => hall c (by simp [hc]))]

/-- Lemma: `dropWhile` skips over a prefix on which the predicate holds. -/
theorem dropWhile_append_of_all {p : Char → Bool} :
    ∀ (l r : List Char), (∀ c ∈ l, p c = true) →
      (l ++ r).dropWhile p = r.dropWhile p := by
  intro l
  induction l with
  | nil => intro r _; rfl
  | cons a l ih =>
    intro r hall
    have ha : p a = true := hall a (by simp)
    simp only [List.cons_append, List.dropWhile_cons_of_pos ha]
    exact ih r (fun c hc => hall c (by simp [hc]))

/-- Lemma: `dropWhile` fixes a list on which the predicate never holds. -/
theorem dropWhile_eq_self_of_all {p : Char → Bool} (l : List Char)
    (h : ∀ c ∈ l, p c = false) : l.dropWhile p = l := by
  cases l with
  | nil => rfl
  | cons a l =>
    have : ¬p a = true := by simp [h a (by simp)]
    exact List.dropWhile_cons_of_neg this

/-- A successful `matchCit` yields nonempty groups over `[a-z0-9_]` and a
strictly shorter remainder. -/
theorem matchCit_spec {t g1 g2 r5 : List Char}
    (h : matchCit t = some (g1, g2, r5)) :
    g1 ≠ [] ∧ g2 ≠ [] ∧ (∀ c ∈ g1, isCitChar c = true) ∧
    (∀ c ∈ g2, isCitChar c = true) ∧ r5.length < t.length := by
  unfold matchCit at h
  dsimp only at h
  split at h
  · exact absurd h (by simp)
  · rename_i hne1
    split at h
    · rename_i r2 heq1
      split at h
      · exact absurd h (by simp)
      · rename_i hne2
        split at h
        · rename_i r5x heq2
          rw [Option.some.injEq, Prod.mk.injEq, Prod.mk.injEq] at h
          obtain ⟨h1, h2, h3⟩ := h
          subst h1
          subst h2
          subst h3
          refine ⟨fun hnil => hne1 (by rw [hnil]; rfl),
            fun hnil => hne2 (by rw [hnil]; rfl),
            fun c hc => List.mem_takeWhile_imp hc,
            fun c hc => List.mem_takeWhile_imp hc, ?_⟩
          have b1 := (List.dropWhile_sublist isCitChar (l := t)).length_le
          rw [heq1] at b1
          have hb := (List.dropWhile_sublist isCitChar
            (l := r2.dropWhile isPySpace)).length_le
          rw [heq2] at hb
          have hb2 := (List.dropWhile_sublist isPySpace (l := r2)).length_le
          simp only [List.length_cons] at b1 hb
          omega
        · exact absurd h (by simp)
    · exact absurd h (by simp)

/-- Every pair extracted by the `re.findall` scan consists of two nonempty
`[a-z0-9_]` groups. -/
theorem extractAux_pairs_spec :
    ∀ (fuel : Nat) (t : List Char), t.length ≤ fuel →
      ∀ p ∈ extractAux fuel t,
        p.1 ≠ [] ∧ p.2 ≠ [] ∧ (∀ c ∈ p.1, isCitChar c = true) ∧
        (∀ c ∈ p.2, isCitChar c = true) := by
  intro fuel
  induction fuel with
  | zero =>
    intro t _ p hp
    exact absurd hp (by simp [extractAux])
  | succ fuel ih =>
    intro t hlen p hp
    cases t with
    | nil => exact absurd hp (by simp [extractAux])
    | cons c rest =>
      have hrest : rest.length ≤ fuel := by
        simp only [List.length_cons] at hlen
        omega
      rw [show extractAux (fuel + 1) (c :: rest)
          = if c = '(' then
              match matchCit rest with
              | some (g1, g2, rest') => (g1, g2) :: extractAux fuel rest'
              | none => extractAux fuel rest
            else extractAux fuel rest from rfl] at hp
      by_cases hc : c = '('
      · rw [if_pos hc] at hp
        cases hm : matchCit rest with
        | none =>
          rw [hm] at hp
          exact ih rest hrest p hp
        | some val =>
          obtain ⟨g1, g2, rest2⟩ := val
          rw [hm] at hp
          rcases List.mem_cons.mp hp with hp | hp
          · obtain ⟨m1, m2, m3, m4, -⟩ := matchCit_spec hm
            subst hp
            exact ⟨m1, m2, m3, m4⟩
          · obtain ⟨-, -, -, -, m5⟩ := matchCit_spec hm
            exact ih rest2 (by omega) p hp
      · rw [if_neg hc] at hp
        exact ih rest hrest p hp

/-- Lemma: `extractPairs` yields nonempty `[a-z0-9_]` groups. -/
theorem extractPairs_spec (t : List Char) :
    ∀ p ∈ extractPairs t,
      p.1 ≠ [] ∧ p.2 ≠ [] ∧ (∀ c ∈ p.1, isCitChar c = true) ∧
      (∀ c ∈ p.2, isCitChar c = true) :=
  extractAux_pairs_spec t.length t le_rfl

/-- The canonical rendered citation `"(g1, g2)"` always re-parses, and the
parsed-and-stripped chunk id is exactly `g2`. -/
theorem parse_render (g1 g2 : List Char) (h1 : g1 ≠ [])
    (hc1 : ∀ c ∈ g1, isCitChar c = true) (h2 : g2 ≠ [])
    (hc2 : ∀ c ∈ g2, isCitChar c = true) :
    parse_chunk_id (renderCit (g1, g2)) = some g2 := by
  have hg1comma : ∀ c ∈ g1, (fun c => !(c = ',')) c = true := by
    intro c hc
    simp [(citChar_facts c (hc1 c hc)).1]
  have hg2paren : ∀ c ∈ g2, (fun c => !(c = ')')) c = true := by
    intro c hc
    simp [(citChar_facts c (hc2 c hc)).2.1]
  have hg2space : ∀ c ∈ g2, isPySpace c = false := by
    intro c hc
    exact (citChar_facts c (hc2 c hc)).2.2.2
  have hmp : matchParen (g1 ++ ',' :: ' ' :: (g2 ++ [')'])) = some g2 := by
    unfold matchParen
    rw [takeWhile_append_of_all g1 _ hg1comma,
      dropWhile_append_of_all g1 _ hg1comma]
    rw [List.takeWhile_cons_of_neg (by simp), List.dropWhile_cons_of_neg (by simp)]
    rw [if_neg (by simp [List.isEmpty_iff, h1])]
    show (let pre := (' ' :: (g2 ++ [')'])).takeWhile (fun c => !(c = ')'))
      let r3 := (' ' :: (g2 ++ [')'])).dropWhile (fun c => !(c = ')'))
      match r3 with
      | ')' :: _ =>
        let x := pre.dropWhile isPySpace
        if x.isEmpty then
          match pre.getLast? with
          | some ch => some [ch]
          | none => none
        else some x
      | _ => none) = some g2
    rw [show (' ' :: (g2 ++ [')'])).takeWhile (fun c => !(c = ')'))
        = ' ' :: g2 by
      rw [List.takeWhile_cons_of_pos (by simp),
        takeWhile_append_of_all g2 _ hg2paren]
      simp]
    rw [show (' ' :: (g2 ++ [')'])).dropWhile (fun c => !(c = ')'))
        = [')'] by
      rw [List.dropWhile_cons_of_pos (by simp),
        dropWhile_append_of_all g2 _ hg2paren]
      simp]
    show (let x := (' ' :: g2).dropWhile isPySpace
      if x.isEmpty then
        match (' ' :: g2).getLast? with
        | some ch => some [ch]
        | none => none
      else some x) = some g2
    rw [show (' ' :: g2).dropWhile isPySpace = g2 by
      rw [List.dropWhile_cons_of_pos (by decide)]
      exact dropWhile_eq_self_of_all g2 hg2space]
    rw [if_neg (by simp [List.isEmpty_iff, h2])]
  have hsp : searchParen (renderCit (g1, g2)) = some g2 := by
    show searchParen ('(' :: (g1 ++ ',' :: ' ' :: (g2 ++ [')']))) = some g2
    rw [show searchParen ('(' :: (g1 ++ ',' :: ' ' :: (g2 ++ [')'])))
        = if ('(' : Char) = '(' then
            match matchParen (g1 ++ ',' :: ' ' :: (g2 ++ [')'])) with
            | some g => some g
            | none => searchParen (g1 ++ ',' :: ' ' :: (g2 ++ [')']))
          else searchParen (g1 ++ ',' :: ' ' :: (g2 ++ [')'])) from rfl]
    rw [if_pos rfl, hmp]
  have hstrip : pyStrip g2 = g2 := by
    unfold pyStrip
    rw [dropWhile_eq_self_of_all g2 hg2space,
      dropWhile_eq_self_of_all g2.reverse (fun c hc =>
        hg2space c (List.mem_reverse.mp hc))]
    exact List.reverse_reverse g2
  unfold parse_chunk_id
  rw [hsp]
  show some (pyStrip g2) = some g2
  rw [hstrip]

/-- The condition under which a pair's groups behave as extracted ones. -/
def GoodPair (p : List Char × List Char) : Prop :=
  p.1 ≠ [] ∧ p.2 ≠ [] ∧ (∀ c ∈ p.1, isCitChar c = true) ∧
  (∀ c ∈ p.2, isCitChar c = true)

/-- Classifying a list of rendered citations: each goes to `valid` or
`invalid` exactly according to whether its chunk id is retrieved. -/
theorem classifyCits_render (ids : List (List Char)) :
    ∀ (pairs : List (List Char × List Char)), (∀ p ∈ pairs, GoodPair p) →
      classifyCits (pairs.map renderCit) ids
        = ((pairs.filter (fun p => decide (p.2 ∈ ids))).map renderCit,
           (pairs.filter (fun p => !decide (p.2 ∈ ids))).map renderCit) := by
  intro pairs
  induction pairs with
  | nil => intro _; rfl
  | cons p ps ih =>
    intro hall
    obtain ⟨hp1, hp2, hp3, hp4⟩ := hall p (by simp)
    have hparse : parse_chunk_id (renderCit p) = some p.2 := by
      obtain ⟨a, b⟩ := p
      exact parse_render a b hp1 hp3 hp2 hp4
    have hih := ih (fun q hq => hall q (by simp [hq]))
    show (let vi := classifyCits (ps.map renderCit) ids
      match parse_chunk_id (renderCit p) with
      | some cid =>
        if cid ∈ ids then (renderCit p :: vi.1, vi.2) else (vi.1, renderCit p :: vi.2)
      | none => vi) = _
    rw [hparse]
    by_cases hmem : p.2 ∈ ids
    · rw [hih]
      simp [List.filter_cons, hmem]
    · rw [hih]
      simp [List.filter_cons, hmem]

/-- The `invalid` list built by `enhance_answer` on rendered citations. -/
theorem enhance_filter_render (ids : List (List Char)) :
    ∀ (pairs : List (List Char × List Char)), (∀ p ∈ pairs, GoodPair p) →
      (pairs.map renderCit).filter (fun c =>
          match parse_chunk_id c with
          | some cid => decide (cid ∉ ids)
          | none => false)
        = (pairs.filter (fun p => !decide (p.2 ∈ ids))).map renderCit := by
  intro pairs
  induction pairs with
  | nil => intro _; rfl
  | cons p ps ih =>
    intro hall
    obtain ⟨hp1, hp2, hp3, hp4⟩ := hall p (by simp)
    have hparse : parse_chunk_id (renderCit p) = some p.2 := by
      obtain ⟨a, b⟩ := p
      exact parse_render a b hp1 hp3 hp2 hp4
    have hih := ih (fun q hq => hall q (by simp [hq]))
    simp only [List.map_cons, List.filter_cons, hparse, hih]
    by_cases hmem : p.2 ∈ ids
    · simp [hmem]
    · simp [hmem]

/-- Shared characterization of `citation_precision`: totals, validity
classification, the invalid list, and the precision formula. -/
theorem citation_precision_spec (answer : List Char) (ids : List (List Char)) :
    (citation_precision answer ids).total_citations = (extractPairs answer).length ∧
    (citation_precision answer ids).valid_citations
      = ((extractPairs answer).filter (fun p => decide (p.2 ∈ ids))).length ∧
    (citation_precision answer ids).invalid
      = ((extractPairs answer).filter (fun p => !decide (p.2 ∈ ids))).map renderCit ∧
    (citation_precision answer ids).invalid_citations
      = (if (extractPairs answer).length = 0 then none
         else some ((extractPairs answer).filter (fun p => !decide (p.2 ∈ ids))).length) ∧
    (citation_precision answer ids).precision
      = (if (extractPairs answer).length = 0 then 0 else
          (((extractPairs answer).filter (fun p => decide (p.2 ∈ ids))).length : ℚ)
            / ((extractPairs answer).length : ℚ)) := by
  have hgood : ∀ p ∈ extractPairs answer, GoodPair p := fun p hp =>
    extractPairs_spec answer p hp
  unfold citation_precision
  by_cases hemp : (extract_citations answer).isEmpty
  · have hnil : extractPairs answer = [] := by
      have := List.isEmpty_iff.mp hemp
      unfold extract_citations at this
      exact List.map_eq_nil_iff.mp this
    rw [if_pos hemp]
    simp [hnil]
  · have hne : extractPairs answer ≠ [] := by
      intro hnil
      apply hemp
      unfold extract_citations
      rw [hnil]
      rfl
    have hlen : (extractPairs answer).length ≠ 0 := by
      simpa [List.length_eq_zero] using hne
    rw [if_neg hemp]
    have hcl := classifyCits_render ids (extractPairs answer) hgood
    unfold extract_citations
    rw [hcl]
    refine ⟨?_, ?_, rfl, ?_, ?_⟩
    · simp [List.length_map]
    · simp [List.length_map]
    · rw [if_neg hlen]
      simp [List.length_map]
    · rw [if_neg hlen]
      simp [List.length_map]

/-- Shared characterization of `enhance_answer`'s validation fields. -/
theorem enhance_answer_spec (answer : List Char) (ids : List (List Char)) :
    (enhance_answer answer ids).invalid_citations
      = ((extractPairs answer).filter (fun p => !decide (p.2 ∈ ids))).map renderCit ∧
    ((enhance_answer answer ids).citation_validation_passed = true ↔
      (enhance_answer answer ids).invalid_citations = []) := by
  have hgood : ∀ p ∈ extractPairs answer, GoodPair p := fun p hp =>
    extractPairs_spec answer p hp
  have hf := enhance_filter_render ids (extractPairs answer) hgood
  constructor
  · show (extract_citations answer).filter _ = _
    unfold extract_citations
    exact hf
  · show ((extract_citations answer).filter _).isEmpty = true ↔ _
    rw [List.isEmpty_iff]
    exact Iff.rfl

/-- The concrete answer of the citation-validity scenario: retrieved chunk
id set `{a}`, answer citing `(src, a)` and `(src, z)`. -/
def exampleAnswer : List Char := "see (src, a) and (src, z).".data

unseal Rat.mul Rat.inv in
/-- C1: a citation is classified valid iff its parsed chunk id belongs to
the retrieved-chunk id set (`valid_citations` counts exactly the extracted
pairs whose chunk id is retrieved, `invalid` holds exactly the others);
`enhance_answer` reports `passed = true` iff its invalid list is empty; the
reported precision is `valid/total` for `total > 0` and exactly `0`
otherwise; and on the concrete scenario (retrieved ids `{a}`, citations
`(src, a)` and `(src, z)`) the result is 2 total, 1 valid, 1 invalid,
precision `1/2`, `passed = false`. -/
theorem C1_citation_validity :
    (∀ (answer : List Char) (ids : List (List Char)),
      (citation_precision answer ids).total_citations = (extractPairs answer).length ∧
      (citation_precision answer ids).valid_citations
        = ((extractPairs answer).filter (fun p => decide (p.2 ∈ ids))).length ∧
      (citation_precision answer ids).invalid
        = ((extractPairs answer).filter (fun p => !decide (p.2 ∈ ids))).map renderCit ∧
      ((enhance_answer answer ids).citation_validation_passed = true ↔
        (enhance_answer answer ids).invalid_citations = []) ∧
      (citation_precision answer ids).precision
        = (if (citation_precision answer ids).total_citations = 0 then 0 else
            ((citation_precision answer ids).valid_citations : ℚ)
              / ((citation_precision answer ids).total_citations : ℚ))) ∧
    (citation_precision exampleAnswer ["a".data]
      = { total_citations := 2, valid_citations := 1, invalid_citations := some 1,
          precision := 1 / 2, invalid := ["(src, z)".data] } ∧
     (enhance_answer exampleAnswer ["a".data]).citation_validation_passed = false) := by
  constructor
  · intro answer ids
    obtain ⟨s1, s2, s3, s4, s5⟩ := citation_precision_spec answer ids
    obtain ⟨e1, e2⟩ := enhance_answer_spec answer ids
    refine ⟨s1, s2, s3, e2, ?_⟩
    rw [s5, s1, s2]
  · constructor
    · decide
    · decide

/-- C10: every extracted citation re-parses (the canonical rendered form is
never dropped by the validation loop), so the classification is exhaustive:
`total_citations = valid_citations + |invalid|`, and the reported precision
always lies in `[0, 1]`. -/
theorem C10_classification_exhaustive :
    ∀ (answer : List Char) (ids : List (List Char)),
      (citation_precision answer ids).total_citations
        = (citation_precision answer ids).valid_citations
          + (citation_precision answer ids).invalid.length ∧
      0 ≤ (citation_precision answer ids).precision ∧
      (citation_precision answer ids).precision ≤ 1 ∧
      (∀ c ∈ extract_citations answer, (parse_chunk_id c).isSome = true) := by
  intro answer ids
  obtain ⟨s1, s2, s3, s4, s5⟩ := citation_precision_spec answer ids
  have hgood : ∀ p ∈ extractPairs answer, GoodPair p := fun p hp =>
    extractPairs_spec answer p hp
  refine ⟨?_, ?_, ?_, ?_⟩
  · rw [s1, s2, s3, List.length_map]
    exact List.length_eq_length_filter_add
      (fun (p : List Char × List Char) => decide (p.2 ∈ ids))
  · rw [s5]
    by_cases h0 : (extractPairs answer).length = 0
    · rw [if_pos h0]
    · rw [if_neg h0]
      positivity
  · rw [s5]
    by_cases h0 : (extractPairs answer).length = 0
    · rw [if_pos h0]
      norm_num
    · rw [if_neg h0]
      rw [div_le_one (by positivity)]
      have := List.length_filter_le (fun p => decide (p.2 ∈ ids)) (extractPairs answer)
      exact_mod_cast this
  · intro c hc
    obtain ⟨p, hp, hpc⟩ := List.mem_map.mp hc
    obtain ⟨g1, g2, g3, g4⟩ := hgood p hp
    have hthis : parse_chunk_id (renderCit p) = some p.2 :=
      parse_render p.1 p.2 g1 g3 g2 g4
    rw [← hpc, hthis]
    rfl

/-! ## Properties of the vector store search -/

/-- A successful `Option`-`mapM` is a pointwise success. -/
theorem mapM_option_forall2 {γ δ : Type} (g : γ → Option δ) :
    ∀ (l : List γ) (out : List δ), l.mapM g = some out →
      List.Forall₂ (fun p o => g p = some o) l out := by
  intro l
  induction l with
  | nil =>
    intro out h
    have h2 : (some ([] : List δ) : Option (List δ)) = some out := h
    have h3 := Option.some.inj h2
    subst h3
    exact List.Forall₂.nil
  | cons a l ih =>
    intro out h
    rw [List.mapM_cons] at h
    cases hga : g a with
    | none => rw [hga] at h; simp at h
    | some b =>
      rw [hga] at h
      cases hml : l.mapM g with
      | none => rw [hml] at h; simp at h
      | some bs =>
        rw [hml] at h
        have : out = b :: bs := by simpa using h.symm
        subst this
        exact List.Forall₂.cons hga (ih bs hml)

/-- An `Option`-`mapM` succeeds when the function succeeds pointwise. -/
theorem mapM_option_of_forall_isSome {γ δ : Type} (g : γ → Option δ) :
    ∀ l : List γ, (∀ p ∈ l, (g p).isSome = true) →
      ∃ out, l.mapM g = some out ∧
        List.Forall₂ (fun p o => g p = some o) l out := by
  intro l
  induction l with
  | nil => intro _; exact ⟨[], rfl, List.Forall₂.nil⟩
  | cons a l ih =>
    intro hall
    obtain ⟨b, hb⟩ := Option.isSome_iff_exists.mp (hall a (by simp))
    obtain ⟨out, hout, hf⟩ := ih (fun p hp => hall p (by simp [hp]))
    refine ⟨b :: out, ?_, List.Forall₂.cons hb hf⟩
    rw [List.mapM_cons, hb, hout]
    rfl

/-- An `Option`-`mapM` over a constant list. -/
theorem mapM_option_replicate {γ δ : Type} (g : γ → Option δ) (x : γ) (y : δ)
    (h : g x = some y) :
    ∀ m : Nat, (List.replicate m x).mapM g = some (List.replicate m y) := by
  intro m
  induction m with
  | zero => rfl
  | succ m ih =>
    rw [List.replicate_succ, List.mapM_cons, h, ih, List.replicate_succ]
    rfl

/-- The metadata lookups of a successful search preserve the score order. -/
theorem forall2_search_snd {β : Type} (md : List β) :
    ∀ (l : List (Int × WithBot ℤ)) (out : List (β × WithBot ℤ)),
      List.Forall₂ (fun p o => (pyGet md p.1).map (fun c => (c, p.2)) = some o) l out →
      out.map Prod.snd = l.map Prod.snd := by
  intro l out h
  induction h with
  | nil => rfl
  | cons hpo _ ih =>
    rename_i p o l2 out2 _
    cases hpg : pyGet md p.1 with
    | none => rw [hpg] at hpo; simp at hpo
    | some c =>
      rw [hpg] at hpo
      have ho : o = (c, p.2) := by simpa using hpo.symm
      simp only [List.map_cons, ih, ho]

/-- The chunks returned by a successful search are the looked-up metadata
entries, expressed through a total lookup with an arbitrary fallback. -/
theorem forall2_search_fst {β : Type} (md : List β) (dflt : β) :
    ∀ (l : List (Int × WithBot ℤ)) (out : List (β × WithBot ℤ)),
      List.Forall₂ (fun p o => (pyGet md p.1).map (fun c => (c, p.2)) = some o) l out →
      out.map Prod.fst = l.map (fun p => (pyGet md p.1).getD dflt) := by
  intro l out h
  induction h with
  | nil => rfl
  | cons hpo _ ih =>
    rename_i p o l2 out2 _
    cases hpg : pyGet md p.1 with
    | none => rw [hpg] at hpo; simp at hpo
    | some c =>
      rw [hpg] at hpo
      have ho : o = (c, p.2) := by simpa using hpo.symm
      simp only [List.map_cons, ih, ho, hpg, Option.getD_some]

/-- Python indexing with a nonnegative in-range index. -/
theorem pyGet_natCast {β : Type} (l : List β) (j : Nat) (h : j < l.length) :
    pyGet l (j : Int) = some (l.get ⟨j, h⟩) := by
  unfold pyGet
  rw [if_neg (show ¬((j : Int) < 0) from by omega)]
  rw [if_pos (show (0 : Int) ≤ (j : Int) from by omega)]
  rw [Int.toNat_natCast]
  exact List.get?_eq_get h

/-- Python indexing at `-1` is the last element (an error on `[]`). -/
theorem pyGet_neg_one {β : Type} (l : List β) : pyGet l (-1) = l.getLast? := by
  unfold pyGet
  rw [if_pos (show (-1 : Int) < 0 from by omega)]
  by_cases hl : l.length = 0
  · rw [if_neg (show ¬((0 : Int) ≤ (l.length : Int) + (-1)) from by omega)]
    have : l = [] := List.length_eq_zero.mp hl
    subst this
    rfl
  · rw [if_pos (show (0 : Int) ≤ (l.length : Int) + (-1) from by omega)]
    rw [List.getLast?_eq_get? l]
    congr 1
    omega

/-- The FAISS output scores are non-increasing: the sorted head, then the
sentinel padding. -/
theorem faissSearchIP_sorted (vecs : List (List ℤ)) (q : List ℤ) (k : Nat) :
    List.Sorted (fun a b : Int × WithBot ℤ => b.2 ≤ a.2) (faissSearchIP vecs q k) := by
  have h0 : faissSearchIP vecs q k
      = ((vecs.enum.map
            (fun p => ((p.1 : Int), ((dotZ p.2 q : ℤ) : WithBot ℤ)))).insertionSort
          rankLE).take k
        ++ List.replicate (k - vecs.length) (-1, (⊥ : WithBot ℤ)) := rfl
  rw [h0]
  apply List.pairwise_append.mpr
  refine ⟨?_, ?_, ?_⟩
  · have hs := List.sorted_insertionSort rankLE
      (vecs.enum.map (fun p => ((p.1 : Int), ((dotZ p.2 q : ℤ) : WithBot ℤ))))
    have himp : ∀ {a b : Int × WithBot ℤ}, rankLE a b → b.2 ≤ a.2 := by
      intro a b hab
      rcases hab with hlt | ⟨heq, -⟩
      · exact le_of_lt hlt
      · exact le_of_eq heq.symm
    exact List.Pairwise.sublist (List.take_sublist _ _) (hs.imp himp)
  · rw [List.pairwise_replicate]
    right
    rfl
  · intro a ha b hb
    have hbv := List.eq_of_mem_replicate hb
    subst hbv
    exact bot_le

/-- Scores of a successful search are non-increasing. -/
theorem search_sorted {β : Type} (vecs : List (List ℤ)) (md : List β)
    (q : List ℤ) (k : Nat) (out : List (β × WithBot ℤ))
    (h : VectorStore.search vecs md q k = some out) :
    List.Sorted (fun a b : β × WithBot ℤ => b.2 ≤ a.2) out := by
  unfold VectorStore.search at h
  have hf := mapM_option_forall2 _ _ _ h
  have hsnd := forall2_search_snd md _ _ hf
  have hsorted := faissSearchIP_sorted vecs q k
  have h1 : List.Pairwise (fun x y : WithBot ℤ => y ≤ x)
      ((faissSearchIP vecs q k).map Prod.snd) :=
    List.pairwise_map.mpr hsorted
  rw [← hsnd] at h1
  exact List.pairwise_map.mp h1

/-- When `k` is at least the (nonempty) store size, the search succeeds and
returns `k` entries: first every stored chunk exactly once (in score
order), then `k - size` copies of the *last* stored chunk carrying the
sentinel score — FAISS pads with label `-1`, which Python's negative
indexing resolves to the last metadata entry. -/
theorem search_overfetch {β : Type} (vecs : List (List ℤ)) (md : List β)
    (q : List ℤ) (k : Nat) (hlen : md.length = vecs.length)
    (h1 : 1 ≤ vecs.length) (hk : vecs.length ≤ k) :
    ∃ (out : List (β × WithBot ℤ)) (last : β),
      VectorStore.search vecs md q k = some out ∧ md.getLast? = some last ∧
      out.length = k ∧ ((out.take vecs.length).map Prod.fst).Perm md ∧
      out.drop vecs.length
        = List.replicate (k - vecs.length) (last, (⊥ : WithBot ℤ)) := by
  have hSlen : ((vecs.enum.map
      (fun p => ((p.1 : Int), ((dotZ p.2 q : ℤ) : WithBot ℤ)))).insertionSort
        rankLE).length = vecs.length := by
    rw [List.length_insertionSort, List.length_map, List.enum_length]
  have hfaiss : faissSearchIP vecs q k
      = (vecs.enum.map
          (fun p => ((p.1 : Int), ((dotZ p.2 q : ℤ) : WithBot ℤ)))).insertionSort rankLE
        ++ List.replicate (k - vecs.length) (-1, (⊥ : WithBot ℤ)) := by
    show ((vecs.enum.map
        (fun p => ((p.1 : Int), ((dotZ p.2 q : ℤ) : WithBot ℤ)))).insertionSort
          rankLE).take k ++ _ = _
    rw [List.take_of_length_le (by omega)]
  have hfstperm : ((vecs.enum.map
      (fun p => ((p.1 : Int), ((dotZ p.2 q : ℤ) : WithBot ℤ)))).insertionSort
        rankLE).map Prod.fst
      |>.Perm ((List.range vecs.length).map (fun j : Nat => (j : Int))) := by
    have hp := (List.perm_insertionSort rankLE
      (vecs.enum.map (fun p => ((p.1 : Int), ((dotZ p.2 q : ℤ) : WithBot ℤ))))).map Prod.fst
    have heq : (vecs.enum.map
        (fun p => ((p.1 : Int), ((dotZ p.2 q : ℤ) : WithBot ℤ)))).map Prod.fst
        = (List.range vecs.length).map (fun j : Nat => (j : Int)) := by
      rw [List.map_map]
      rw [show (Prod.fst ∘ (fun p : Nat × List ℤ =>
          ((p.1 : Int), ((dotZ p.2 q : ℤ) : WithBot ℤ))))
        = ((fun j : Nat => (j : Int)) ∘ Prod.fst) from rfl]
      rw [← List.map_map, List.enum_map_fst]
    exact heq ▸ hp
  have hmem_idx : ∀ p ∈ (vecs.enum.map
      (fun p => ((p.1 : Int), ((dotZ p.2 q : ℤ) : WithBot ℤ)))).insertionSort rankLE,
      ∃ j : Nat, j < vecs.length ∧ p.1 = (j : Int) := by
    intro p hp
    have hp1 : p.1 ∈ ((vecs.enum.map
        (fun p => ((p.1 : Int), ((dotZ p.2 q : ℤ) : WithBot ℤ)))).insertionSort
          rankLE).map Prod.fst := List.mem_map_of_mem Prod.fst hp
    have hp2 := hfstperm.mem_iff.mp hp1
    obtain ⟨j, hj, hjeq⟩ := List.mem_map.mp hp2
    exact ⟨j, by simpa using hj, hjeq.symm⟩
  have hmdne : md ≠ [] := by
    intro hmd
    rw [hmd] at hlen
    simp at hlen
    omega
  obtain ⟨last, hlast⟩ : ∃ last, md.getLast? = some last := by
    cases hmd : md.getLast? with
    | none => exact absurd (List.getLast?_eq_none_iff.mp hmd) hmdne
    | some c => exact ⟨c, rfl⟩
  have hSome : ∀ p ∈ (vecs.enum.map
      (fun p => ((p.1 : Int), ((dotZ p.2 q : ℤ) : WithBot ℤ)))).insertionSort rankLE,
      ((pyGet md p.1).map (fun c => (c, p.2))).isSome = true := by
    intro p hp
    obtain ⟨j, hj, hpj⟩ := hmem_idx p hp
    rw [hpj, pyGet_natCast md j (by omega)]
    rfl
  obtain ⟨outA, houtA, hfA⟩ := mapM_option_of_forall_isSome
    (fun p : Int × WithBot ℤ => (pyGet md p.1).map (fun c => (c, p.2))) _ hSome
  have hgpad : (fun p : Int × WithBot ℤ => (pyGet md p.1).map (fun c => (c, p.2)))
      (-1, (⊥ : WithBot ℤ)) = some (last, (⊥ : WithBot ℤ)) := by
    show (pyGet md (-1)).map _ = _
    rw [pyGet_neg_one, hlast]
    rfl
  have houtB := mapM_option_replicate
    (fun p : Int × WithBot ℤ => (pyGet md p.1).map (fun c => (c, p.2)))
    _ _ hgpad (k - vecs.length)
  have houtAlen : outA.length = vecs.length := by
    rw [← hfA.length_eq]
    exact hSlen
  have hsearch : VectorStore.search vecs md q k
      = some (outA ++ List.replicate (k - vecs.length) (last, (⊥ : WithBot ℤ))) := by
    unfold VectorStore.search
    rw [hfaiss, List.mapM_append, houtA, houtB]
    rfl
  refine ⟨outA ++ List.replicate (k - vecs.length) (last, (⊥ : WithBot ℤ)), last,
    hsearch, hlast, ?_, ?_, ?_⟩
  · rw [List.length_append, List.length_replicate, houtAlen]
    omega
  · rw [List.take_left' houtAlen]
    have hfst := forall2_search_fst md last _ _ hfA
    rw [hfst]
    have hmapped : ((List.range vecs.length).map (fun j : Nat => (j : Int))).map
        (fun i => (pyGet md i).getD last) = md := by
      rw [List.map_map]
      refine List.ext_get ?_ ?_
      · simp [hlen]
      · intro i hi1 hi2
        simp only [List.get_eq_getElem, List.getElem_map, List.getElem_range,
          Function.comp_apply]
        rw [pyGet_natCast md i (by simpa using hi2)]
        rfl
    have hstep1 : ((vecs.enum.map
        (fun p => ((p.1 : Int), ((dotZ p.2 q : ℤ) : WithBot ℤ)))).insertionSort
          rankLE).map (fun p => (pyGet md p.1).getD last)
        = (((vecs.enum.map
            (fun p => ((p.1 : Int), ((dotZ p.2 q : ℤ) : WithBot ℤ)))).insertionSort
              rankLE).map Prod.fst).map (fun i => (pyGet md i).getD last) := by
      rw [List.map_map]
      rfl
    rw [hstep1]
    refine (hfstperm.map (fun i => (pyGet md i).getD last)).trans ?_
    rw [hmapped]
  · rw [List.drop_left' houtAlen]

/-- Searching an empty store raises: every returned label is the padding
`-1`, and Python indexing `[-1]` on the empty metadata list is an
`IndexError`. -/
theorem search_empty_store {β : Type} (q : List ℤ) (k : Nat) (hk : 1 ≤ k) :
    VectorStore.search ([] : List (List ℤ)) ([] : List β) q k = none := by
  obtain ⟨m, rfl⟩ : ∃ m, k = m + 1 := ⟨k - 1, by omega⟩
  show (faissSearchIP [] q (m + 1)).mapM _ = none
  have hfaiss : faissSearchIP ([] : List (List ℤ)) q (m + 1)
      = List.replicate (m + 1) (-1, (⊥ : WithBot ℤ)) := rfl
  rw [hfaiss, List.replicate_succ, List.mapM_cons]
  rfl

/-- C5 (counterexample): on a store holding exactly one chunk, `search`
with `k = 2` does not return "exactly all stored entries, one per indexed
chunk, no duplicates": it returns two entries, both of them the single
stored chunk (the FAISS padding label `-1` resolves, through Python
negative indexing, to the last metadata entry with the sentinel score). -/
theorem C5_counterexample :
    VectorStore.search [[1]] [(0 : Nat)] [1] 2
      = some [(0, ((1 : ℤ) : WithBot ℤ)), (0, (⊥ : WithBot ℤ))] ∧
    (VectorStore.search [[1]] [(0 : Nat)] [1] 2).map
        (fun out => decide ((out.map Prod.fst).Nodup)) = some false ∧
    [[(1 : ℤ)]].length = 1 := by
  refine ⟨by decide, by decide, rfl⟩

/-- C5 (amended): for every store and query, the scores of a successful
search are non-increasing with each chunk annotated by its score; when the
store is nonempty and `k` is at least its size, the search returns `k`
entries — every stored chunk exactly once, followed by `k - size`
duplicates of the last stored chunk with the sentinel (bottom) score.
Searching an empty store with `k ≥ 1` fails with an `IndexError` instead of
returning all (zero) entries. -/
theorem C5_amended :
    (∀ (β : Type) (vecs : List (List ℤ)) (md : List β) (q : List ℤ) (k : Nat)
      (out : List (β × WithBot ℤ)), VectorStore.search vecs md q k = some out →
      List.Sorted (fun a b : β × WithBot ℤ => b.2 ≤ a.2) out) ∧
    (∀ (β : Type) (vecs : List (List ℤ)) (md : List β) (q : List ℤ) (k : Nat),
      md.length = vecs.length → 1 ≤ vecs.length → vecs.length ≤ k →
      ∃ (out : List (β × WithBot ℤ)) (last : β),
        VectorStore.search vecs md q k = some out ∧ md.getLast? = some last ∧
        out.length = k ∧ ((out.take vecs.length).map Prod.fst).Perm md ∧
        out.drop vecs.length
          = List.replicate (k - vecs.length) (last, (⊥ : WithBot ℤ))) ∧
    (∀ (β : Type) (q : List ℤ) (k : Nat), 1 ≤ k →
      VectorStore.search ([] : List (List ℤ)) ([] : List β) q k = none) := by
  exact ⟨fun β vecs md q k out h => search_sorted vecs md q k out h,
    fun β vecs md q k hlen h1 hk => search_overfetch vecs md q k hlen h1 hk,
    fun β q k hk => search_empty_store q k hk⟩

/-- C5 (witness): over-fetching from a two-chunk store succeeds with
exactly `k` results. -/
theorem C5_witness :
    (VectorStore.search [[1], [2]] [(10 : Nat), 20] [1] 3).isSome = true := by
  obtain ⟨out, last, hs, -, -, -, -⟩ :=
    C5_amended.2.1 Nat [[1], [2]] [10, 20] [1] 3 rfl (by decide) (by decide)
  rw [hs]
  rfl

/-- C1 (witness): the general characterization instantiated on the
concrete scenario. -/
theorem C1_witness :
    (citation_precision exampleAnswer ["a".data]).total_citations
      = (extractPairs exampleAnswer).length :=
  (C1_citation_validity.1 exampleAnswer ["a".data]).1

/-- C2 (witness): the rule decomposition instantiated on empty inputs. -/
theorem C2_witness :
    ∃ rest, find_failure_cases [] [] = rule12Failures [] [] ++ rest := by
  obtain ⟨rest, heq, -, -⟩ := C2_amended.1 [] []
  exact ⟨rest, heq⟩

/-- C10 (witness): exhaustiveness instantiated on the concrete scenario. -/
theorem C10_witness :
    (citation_precision exampleAnswer ["a".data]).total_citations
      = (citation_precision exampleAnswer ["a".data]).valid_citations
        + (citation_precision exampleAnswer ["a".data]).invalid.length :=
  (C10_classification_exhaustive exampleAnswer ["a".data]).1
